import Mathlib

/-!
# Console line discipline (xv6 `kernel/console.c`): shallow embedding

We embed the console input ring and its two entry points:

* `consoleintr` — the producer path (interrupt handler): editing
  (kill-line, backspace/delete), echo, append, commit and wakeup;
* `consoleread` — the blocking consumer: drains committed bytes into a
  destination sink, one line (or end-of-file) per call.

Bytes and cursors are modelled as `Nat`.  The C cursors are 32-bit
unsigned and only grow (decrements are guarded so they never underflow on
states satisfying the ring invariant `r ≤ w ≤ e`); on such states C's
unsigned arithmetic agrees with `Nat` arithmetic, which is how the
definitions below are to be read.  Where C truncates an `int` into the
`char` array we write `% 256` explicitly.

Echo output is modelled as the list of byte values handed to the uart by
`consputc`; the `wakeup(&cons.r)` call is modelled as a boolean flag.
External services (`procdump`, `either_copyout`, `killed`, `sleep`) are
opaque to the core: `procdump` has no ring effect, copying is an oracle
`copyOk : Nat → Bool` indexed by destination offset, the kill state is a
boolean, and reaching `sleep` is reported as a `blocked` outcome.
-/

/-- `INPUT_BUF_SIZE` from `console.c`. -/
def INPUT_BUF_SIZE : Nat := 128

/-- The `BACKSPACE` sentinel (0x100) from `console.c`. -/
def BACKSPACE : Nat := 256

/-- `consputc c`: the bytes sent synchronously to the uart.  For the
`BACKSPACE` sentinel it emits backspace, space, backspace (8, 32, 8);
otherwise the byte itself. -/
def consputc (c : Nat) : List Nat :=
  if c = BACKSPACE then [8, 32, 8] else [c]

/-- The console input ring `cons`: the byte array `buf` (length 128,
indexed mod `INPUT_BUF_SIZE`) and the three cursors `r` (read), `w`
(write/committed) and `e` (edit/pending). -/
structure Cons where
  buf : List Nat
  r : Nat
  w : Nat
  e : Nat
deriving DecidableEq, Repr

/-- The initial state: all cursors 0, buffer zeroed. -/
def initCons : Cons := ⟨List.replicate 128 0, 0, 0, 0⟩

/-- Result of one `consoleintr` call: the new ring state, the echo bytes
sent to the uart, and whether `wakeup(&cons.r)` was called. -/
structure IntrResult where
  state : Cons
  echo : List Nat
  wake : Bool
deriving DecidableEq, Repr

/-- The kill-line loop of `consoleintr` (case `C('U')`): while
`e ≠ w` and the byte before `e` is not a newline, decrement `e` and echo
`BACKSPACE`.  Returns the final `e` and the echo output.  Recursion is on
`e`, which the C loop decrements; on states with `w ≤ e` (the ring
invariant) this agrees with the C loop. -/
def killLoop (buf : List Nat) (w : Nat) : Nat → Nat × List Nat
  | 0 => (0, [])
  | e + 1 =>
    if e + 1 ≠ w ∧ buf.getD (e % INPUT_BUF_SIZE) 0 ≠ 10 then
      ((killLoop buf w e).1, consputc BACKSPACE ++ (killLoop buf w e).2)
    else (e + 1, [])

/-- `consoleintr c`: the console input interrupt handler.  `C('P')` = 16
dumps the process list (no ring effect), `C('U')` = 21 kills the line,
`C('H')` = 8 and `'\x7f'` = 127 erase one pending byte, and any other
nonzero character with `e - r < INPUT_BUF_SIZE` is normalized
(`'\r'` = 13 becomes `'\n'` = 10), echoed, stored at `e % 128`, and
committed (with wakeup) if it is `'\n'`, `C('D')` = 4, or the buffer just
became full. -/
def consoleintr (c : Nat) (s : Cons) : IntrResult :=
  if c = 16 then
    ⟨s, [], false⟩
  else if c = 21 then
    ⟨{ s with e := (killLoop s.buf s.w s.e).1 }, (killLoop s.buf s.w s.e).2, false⟩
  else if c = 8 ∨ c = 127 then
    if s.e ≠ s.w then
      ⟨{ s with e := s.e - 1 }, consputc BACKSPACE, false⟩
    else ⟨s, [], false⟩
  else if c ≠ 0 ∧ s.e - s.r < INPUT_BUF_SIZE then
    let c2 := if c = 13 then 10 else c
    let buf2 := s.buf.set (s.e % INPUT_BUF_SIZE) (c2 % 256)
    let e2 := s.e + 1
    if c2 = 10 ∨ c2 = 4 ∨ e2 - s.r = INPUT_BUF_SIZE then
      ⟨⟨buf2, s.r, e2, e2⟩, consputc c2, true⟩
    else
      ⟨⟨buf2, s.r, s.w, e2⟩, consputc c2, false⟩
  else ⟨s, [], false⟩

/-- Outcome of a `consoleread` call: either the call returns (`done`,
with the C return value `target - n`, the bytes delivered to the
destination sink, and the final ring state), or it reaches
`sleep(&cons.r, &cons.lock)` (`blocked`, with the bytes delivered so far
and the ring state at the moment of sleeping). -/
inductive ReadOutcome where
  | done (ret : Int) (delivered : List Nat) (state : Cons)
  | blocked (delivered : List Nat) (state : Cons)
deriving DecidableEq, Repr

/-- The `while(n > 0)` loop of `consoleread`.  `copyOk i` tells whether
`either_copyout` succeeds for the byte at destination offset `i`;
`killed` is the kill state polled in the wait loop; `target` is the
original request; the `Nat` argument is the remaining count `n`; `dl`
accumulates the bytes delivered so far. -/
def consolereadLoop (copyOk : Nat → Bool) (killed : Bool) (target : Nat) :
    Nat → List Nat → Cons → ReadOutcome
  | 0, dl, s => .done (target : Nat) dl s
  | n + 1, dl, s =>
    if s.r = s.w then
      if killed then .done (-1) dl s
      else .blocked dl s
    else
      let c := s.buf.getD (s.r % INPUT_BUF_SIZE) 0
      let s2 : Cons := { s with r := s.r + 1 }
      if c = 4 then
        if n + 1 < target then
          .done ((target - (n + 1) : Nat) : Int) dl { s2 with r := s2.r - 1 }
        else
          .done ((target - (n + 1) : Nat) : Int) dl s2
      else if copyOk dl.length then
        if c = 10 then
          .done ((target - n : Nat) : Int) (dl ++ [c]) s2
        else
          consolereadLoop copyOk killed target n (dl ++ [c]) s2
      else
        .done ((target - (n + 1) : Nat) : Int) dl s2

/-- `consoleread`: a user read of `n` bytes starting with the ring in
state `s`.  Sets `target = n` and runs the loop with nothing delivered
yet. -/
def consoleread (copyOk : Nat → Bool) (killed : Bool) (n : Nat) (s : Cons) :
    ReadOutcome :=
  consolereadLoop copyOk killed n n [] s

/-- The ring state an outcome leaves behind. -/
def readFinal (o : ReadOutcome) : Cons :=
  match o with
  | .done _ _ s => s
  | .blocked _ s => s

/-- Push a character sequence through the producer path, byte by byte. -/
def pushList (cs : List Nat) (s : Cons) : Cons :=
  cs.foldl (fun t c => (consoleintr c t).state) s

/-- The per-character wakeup flags along a pushed character sequence. -/
def wakeTrace : List Nat → Cons → List Bool
  | [], _ => []
  | c :: rest, s => (consoleintr c s).wake :: wakeTrace rest (consoleintr c s).state

/-- The three-cursor ordering invariant of the ring:
`consumed ≤ committed ≤ pending ≤ consumed + N`. -/
def ConsInvariant (s : Cons) : Prop :=
  s.r ≤ s.w ∧ s.w ≤ s.e ∧ s.e ≤ s.r + INPUT_BUF_SIZE

instance (s : Cons) : Decidable (ConsInvariant s) := by
  unfold ConsInvariant; infer_instance

/-- One atomic step of the console: either the interrupt handler runs on
some character, or a read call runs to completion or to its sleep
point. -/
inductive ConsStep : Cons → Cons → Prop where
  | intr (c : Nat) (s : Cons) : ConsStep s (consoleintr c s).state
  | read (copyOk : Nat → Bool) (killed : Bool) (n : Nat) (s : Cons) :
      ConsStep s (readFinal (consoleread copyOk killed n s))

/-- States reachable from the initial state by interrupt and read steps. -/
def ConsReachable (s : Cons) : Prop :=
  Relation.ReflTransGen ConsStep initCons s

theorem consInvariant_iff (s : Cons) :
    ConsInvariant s ↔ s.r ≤ s.w ∧ s.w ≤ s.e ∧ s.e ≤ s.r + 128 := Iff.rfl

theorem killLoop_le (buf : List Nat) (w : Nat) :
    ∀ e, w ≤ e → w ≤ (killLoop buf w e).1 ∧ (killLoop buf w e).1 ≤ e := by
  intro e
  induction e with
  | zero => intro h; rw [killLoop]; exact ⟨h, Nat.le_refl 0⟩
  | succ e ih =>
    intro h
    rw [killLoop]
    by_cases hc : e + 1 ≠ w ∧ buf.getD (e % INPUT_BUF_SIZE) 0 ≠ 10
    · rw [if_pos hc]
      have hih := ih (by omega)
      exact ⟨hih.1, Nat.le_succ_of_le hih.2⟩
    · rw [if_neg hc]
      exact ⟨h, Nat.le_refl _⟩

theorem consoleintr_invariant (c : Nat) (s : Cons) (hs : ConsInvariant s) :
    ConsInvariant (consoleintr c s).state := by
  obtain ⟨h1, h2, h3⟩ := hs
  have h3' : s.e ≤ s.r + 128 := h3
  have hk := killLoop_le s.buf s.w s.e h2
  simp only [consInvariant_iff]
  unfold consoleintr
  dsimp only
  split_ifs <;> (try simp only [INPUT_BUF_SIZE] at *) <;> omega

theorem consolereadLoop_invariant (copyOk : Nat → Bool) (killed : Bool) (target : Nat) :
    ∀ n dl s, ConsInvariant s →
      ConsInvariant (readFinal (consolereadLoop copyOk killed target n dl s)) := by
  intro n
  induction n with
  | zero => intro dl s hs; exact hs
  | succ n ih =>
    intro dl s hs
    obtain ⟨h1, h2, h3⟩ := hs
    have h3' : s.e ≤ s.r + 128 := h3
    rw [consolereadLoop]
    by_cases hrw : s.r = s.w
    · rw [if_pos hrw]
      cases killed
      · exact ⟨h1, h2, h3⟩
      · exact ⟨h1, h2, h3⟩
    · rw [if_neg hrw]
      dsimp only
      by_cases heof : s.buf.getD (s.r % INPUT_BUF_SIZE) 0 = 4
      · rw [if_pos heof]
        by_cases hlt : n + 1 < target
        · rw [if_pos hlt]
          simp only [readFinal, consInvariant_iff]
          omega
        · rw [if_neg hlt]
          simp only [readFinal, consInvariant_iff]
          omega
      · rw [if_neg heof]
        by_cases hcopy : copyOk dl.length = true
        · rw [if_pos hcopy]
          by_cases hnl : s.buf.getD (s.r % INPUT_BUF_SIZE) 0 = 10
          · rw [if_pos hnl]
            simp only [readFinal, consInvariant_iff]
            omega
          · rw [if_neg hnl]
            exact ih _ _ (by simp only [consInvariant_iff]; omega)
        · rw [if_neg hcopy]
          simp only [readFinal, consInvariant_iff]
          omega

theorem consStep_invariant {s t : Cons} (h : ConsStep s t) (hs : ConsInvariant s) :
    ConsInvariant t := by
  cases h with
  | intr c s => exact consoleintr_invariant c s hs
  | read copyOk killed n s => exact consolereadLoop_invariant copyOk killed n n [] s hs

/-- C1: in every state reachable from the all-zero initial state by
`consoleintr` and `consoleread` steps, the cursors satisfy
`cons.r ≤ cons.w ≤ cons.e ≤ cons.r + INPUT_BUF_SIZE`. -/
theorem consoleRing_reachable_invariant (s : Cons) (h : ConsReachable s) :
    ConsInvariant s := by
  unfold ConsReachable at h
  induction h with
  | refl => exact ⟨Nat.le_refl 0, Nat.le_refl 0, by simp [initCons, INPUT_BUF_SIZE]⟩
  | tail _ hstep ih => exact consStep_invariant hstep ih

theorem consoleRing_reachable_invariant_witness :
    ConsInvariant (consoleintr 97 initCons).state :=
  consoleRing_reachable_invariant (consoleintr 97 initCons).state
    (Relation.ReflTransGen.single (ConsStep.intr 97 initCons))

/-! ## Single-iteration laws of the read loop -/

theorem readLoop_killed_step {co : Nat → Bool} {t n : Nat} {dl : List Nat} {s : Cons}
    (hrw : s.r = s.w) :
    consolereadLoop co true t (n + 1) dl s = .done (-1) dl s := by
  rw [consolereadLoop, if_pos hrw, if_pos rfl]

theorem readLoop_pop_step {co : Nat → Bool} {kd : Bool} {t n : Nat} {dl dl' : List Nat}
    {s s' : Cons} (hrw : ¬ s.r = s.w)
    (heof : ¬ s.buf.getD (s.r % INPUT_BUF_SIZE) 0 = 4)
    (hnl : ¬ s.buf.getD (s.r % INPUT_BUF_SIZE) 0 = 10)
    (hcopy : co dl.length = true)
    (hdl : dl' = dl ++ [s.buf.getD (s.r % INPUT_BUF_SIZE) 0])
    (hs : s' = { s with r := s.r + 1 }) :
    consolereadLoop co kd t (n + 1) dl s = consolereadLoop co kd t n dl' s' := by
  subst hdl hs
  rw [consolereadLoop, if_neg hrw]
  dsimp only
  rw [if_neg heof, if_pos hcopy, if_neg hnl]

theorem readLoop_newline_step {co : Nat → Bool} {kd : Bool} {t n : Nat}
    {dl dl' : List Nat} {s s' : Cons} {ret : Int} (hrw : ¬ s.r = s.w)
    (hnl : s.buf.getD (s.r % INPUT_BUF_SIZE) 0 = 10)
    (hcopy : co dl.length = true)
    (hdl : dl' = dl ++ [10]) (hs : s' = { s with r := s.r + 1 })
    (hret : ret = ((t - n : Nat) : Int)) :
    consolereadLoop co kd t (n + 1) dl s = .done ret dl' s' := by
  subst hdl hs hret
  rw [consolereadLoop, if_neg hrw]
  dsimp only
  rw [hnl]
  rw [if_neg (by decide : ¬ (10 : Nat) = 4), if_pos hcopy, if_pos rfl]

theorem readLoop_eof_pushback_step {co : Nat → Bool} {kd : Bool} {t n : Nat}
    {dl : List Nat} {s : Cons} {ret : Int} (hrw : ¬ s.r = s.w)
    (heof : s.buf.getD (s.r % INPUT_BUF_SIZE) 0 = 4)
    (hlt : n + 1 < t) (hret : ret = ((t - (n + 1) : Nat) : Int)) :
    consolereadLoop co kd t (n + 1) dl s = .done ret dl s := by
  subst hret
  rw [consolereadLoop, if_neg hrw]
  dsimp only
  rw [if_pos heof, if_pos hlt]
  rfl

theorem readLoop_eof_zero_step {co : Nat → Bool} {kd : Bool} {t n : Nat}
    {dl : List Nat} {s s' : Cons} {ret : Int} (hrw : ¬ s.r = s.w)
    (heof : s.buf.getD (s.r % INPUT_BUF_SIZE) 0 = 4)
    (hlt : ¬ n + 1 < t) (hret : ret = ((t - (n + 1) : Nat) : Int))
    (hs : s' = { s with r := s.r + 1 }) :
    consolereadLoop co kd t (n + 1) dl s = .done ret dl s' := by
  subst hret hs
  rw [consolereadLoop, if_neg hrw]
  dsimp only
  rw [if_pos heof, if_neg hlt]

theorem readLoop_copyfail_step {co : Nat → Bool} {kd : Bool} {t n : Nat}
    {dl : List Nat} {s s' : Cons} {ret : Int} (hrw : ¬ s.r = s.w)
    (heof : ¬ s.buf.getD (s.r % INPUT_BUF_SIZE) 0 = 4)
    (hcopy : co dl.length = false)
    (hret : ret = ((t - (n + 1) : Nat) : Int))
    (hs : s' = { s with r := s.r + 1 }) :
    consolereadLoop co kd t (n + 1) dl s = .done ret dl s' := by
  subst hret hs
  rw [consolereadLoop, if_neg hrw]
  dsimp only
  rw [if_neg heof, if_neg (by simp [hcopy] : ¬ co dl.length = true)]

/-! ## Claims about the reader -/

/-- C7: a reader entering the wait loop with no committed data
(`cons.r == cons.w`) whose task is in the killed state returns `-1`
(Cancelled) immediately, delivers nothing, and leaves the ring state —
buffer and all three cursors — exactly as it was. -/
theorem killed_reader_returns_cancelled (copyOk : Nat → Bool) (n : Nat) (s : Cons)
    (hrw : s.r = s.w) (hn : 0 < n) :
    consoleread copyOk true n s = .done (-1) [] s := by
  obtain ⟨m, rfl⟩ : ∃ m, n = m + 1 := ⟨n - 1, by omega⟩
  rw [consoleread]
  exact readLoop_killed_step hrw

theorem killed_reader_returns_cancelled_witness :
    consoleread (fun _ => true) true 5 initCons = .done (-1) [] initCons :=
  killed_reader_returns_cancelled (fun _ => true) 5 initCons rfl (by decide)

/-- C3: pushing `'a'`, `'b'`, then the end-of-file marker `C('D')` into
the empty ring and reading twice with any requested length `≥ 10` yields
exactly the two bytes `"ab"` and return value 2 on the first call (the
marker is pushed back: the read cursor of `s1` is 2, pointing at the
marker), and zero bytes with return value 0 on the second call (the
marker is consumed: the read cursor advances to 3). -/
theorem eof_pairing_two_reads (n : Nat) (h : 10 ≤ n) :
    consoleread (fun _ => true) false n (pushList [97, 98, 4] initCons) =
      .done 2 [97, 98] ⟨(((List.replicate 128 0).set 0 97).set 1 98).set 2 4, 2, 3, 3⟩ ∧
    consoleread (fun _ => true) false n
        ⟨(((List.replicate 128 0).set 0 97).set 1 98).set 2 4, 2, 3, 3⟩ =
      .done 0 [] ⟨(((List.replicate 128 0).set 0 97).set 1 98).set 2 4, 3, 3, 3⟩ := by
  obtain ⟨k, rfl⟩ := Nat.exists_eq_add_of_le h
  constructor
  · have h0 : pushList [97, 98, 4] initCons =
        ⟨(((List.replicate 128 0).set 0 97).set 1 98).set 2 4, 0, 3, 3⟩ := by decide
    rw [consoleread, h0]
    rw [show 10 + k = 9 + k + 1 from by omega]
    rw [readLoop_pop_step (by decide) (by decide) (by decide) rfl rfl rfl]
    rw [show 9 + k = 8 + k + 1 from by omega]
    rw [readLoop_pop_step (by decide) (by decide) (by decide) rfl rfl rfl]
    rw [show 8 + k = 7 + k + 1 from by omega]
    exact readLoop_eof_pushback_step (by decide) (by decide) (by omega) (by omega)
  · rw [consoleread]
    rw [show 10 + k = 9 + k + 1 from by omega]
    exact readLoop_eof_zero_step (by decide) (by decide) (by omega) (by omega) (by decide)

theorem eof_pairing_two_reads_witness :
    consoleread (fun _ => true) false 10 (pushList [97, 98, 4] initCons) =
      .done 2 [97, 98] ⟨(((List.replicate 128 0).set 0 97).set 1 98).set 2 4, 2, 3, 3⟩ ∧
    consoleread (fun _ => true) false 10
        ⟨(((List.replicate 128 0).set 0 97).set 1 98).set 2 4, 2, 3, 3⟩ =
      .done 0 [] ⟨(((List.replicate 128 0).set 0 97).set 1 98).set 2 4, 3, 3, 3⟩ :=
  eof_pairing_two_reads 10 (by decide)

/-- C4: pushing the character sequence `"ab\n"` through `consoleintr`
into the empty ring and then reading with any requested length `≥ 3`
delivers exactly the three bytes `"ab\n"` to the destination sink and
returns 3. -/
theorem roundtrip_line_read (n : Nat) (h : 3 ≤ n) :
    consoleread (fun _ => true) false n (pushList [97, 98, 10] initCons) =
      .done 3 [97, 98, 10]
        ⟨(((List.replicate 128 0).set 0 97).set 1 98).set 2 10, 3, 3, 3⟩ := by
  obtain ⟨k, rfl⟩ := Nat.exists_eq_add_of_le h
  have h0 : pushList [97, 98, 10] initCons =
      ⟨(((List.replicate 128 0).set 0 97).set 1 98).set 2 10, 0, 3, 3⟩ := by decide
  rw [consoleread, h0]
  rw [show 3 + k = 2 + k + 1 from by omega]
  rw [readLoop_pop_step (by decide) (by decide) (by decide) rfl rfl rfl]
  rw [show 2 + k = 1 + k + 1 from by omega]
  rw [readLoop_pop_step (by decide) (by decide) (by decide) rfl rfl rfl]
  rw [show 1 + k = k + 1 from by omega]
  exact readLoop_newline_step (by decide) (by decide) rfl (by decide) (by decide) (by omega)

theorem roundtrip_line_read_witness :
    consoleread (fun _ => true) false 3 (pushList [97, 98, 10] initCons) =
      .done 3 [97, 98, 10]
        ⟨(((List.replicate 128 0).set 0 97).set 1 98).set 2 10, 3, 3, 3⟩ :=
  roundtrip_line_read 3 (by decide)

theorem not_mem_dropLast_of_not_mem {a : Nat} {l : List Nat} (h : a ∉ l) :
    a ∉ l.dropLast := fun hm => h ((List.dropLast_sublist l).mem hm)

theorem consolereadLoop_newline_only_last (co : Nat → Bool) (kd : Bool) (t : Nat) :
    ∀ n dl s ret dl' s', (10 : Nat) ∉ dl →
      consolereadLoop co kd t n dl s = .done ret dl' s' →
      (10 : Nat) ∉ dl'.dropLast := by
  intro n
  induction n with
  | zero =>
    intro dl s ret dl' s' hdl heq
    rw [consolereadLoop] at heq
    injection heq with h1 h2 h3
    subst h2
    exact not_mem_dropLast_of_not_mem hdl
  | succ n ih =>
    intro dl s ret dl' s' hdl heq
    rw [consolereadLoop] at heq
    by_cases hrw : s.r = s.w
    · rw [if_pos hrw] at heq
      cases kd
      · exact absurd heq (by simp)
      · rw [if_pos rfl] at heq
        injection heq with h1 h2 h3
        subst h2
        exact not_mem_dropLast_of_not_mem hdl
    · rw [if_neg hrw] at heq
      dsimp only at heq
      by_cases heof : s.buf.getD (s.r % INPUT_BUF_SIZE) 0 = 4
      · rw [if_pos heof] at heq
        by_cases hlt : n + 1 < t
        · rw [if_pos hlt] at heq
          injection heq with h1 h2 h3
          subst h2
          exact not_mem_dropLast_of_not_mem hdl
        · rw [if_neg hlt] at heq
          injection heq with h1 h2 h3
          subst h2
          exact not_mem_dropLast_of_not_mem hdl
      · rw [if_neg heof] at heq
        by_cases hcopy : co dl.length = true
        · rw [if_pos hcopy] at heq
          by_cases hnl : s.buf.getD (s.r % INPUT_BUF_SIZE) 0 = 10
          · rw [if_pos hnl, hnl] at heq
            injection heq with h1 h2 h3
            subst h2
            rw [List.dropLast_concat]
            exact hdl
          · rw [if_neg hnl] at heq
            refine ih _ _ _ _ _ ?_ heq
            intro hm
            rcases List.mem_append.mp hm with hm1 | hm2
            · exact hdl hm1
            · exact hnl (List.mem_singleton.mp hm2).symm
        · rw [if_neg hcopy] at heq
          injection heq with h1 h2 h3
          subst h2
          exact not_mem_dropLast_of_not_mem hdl

/-- C8: delivery stops at the first newline byte delivered: whenever a
read call returns (`done`) with delivered byte list `dl`, no byte of `dl`
other than possibly the last one is a newline, so a single call never
returns bytes from more than one committed line. -/
theorem read_never_spans_lines (copyOk : Nat → Bool) (killed : Bool) (n : Nat)
    (s : Cons) (ret : Int) (dl : List Nat) (s' : Cons)
    (h : consoleread copyOk killed n s = .done ret dl s') :
    (10 : Nat) ∉ dl.dropLast :=
  consolereadLoop_newline_only_last copyOk killed n n [] s ret dl s' (by simp) h

theorem read_never_spans_lines_witness :
    (10 : Nat) ∉ ([97, 10] : List Nat).dropLast :=
  read_never_spans_lines (fun _ => true) false 5 (pushList [97, 10, 98, 10] initCons)
    2 [97, 10]
    ⟨((((List.replicate 128 0).set 0 97).set 1 10).set 2 98).set 3 10, 2, 4, 4⟩
    (by decide)

/-- C10: if `either_copyout` fails for the byte just popped (a byte that
is neither the end-of-file marker nor preceded by an empty ring), the
loop stops and returns the count delivered so far with the delivered
bytes unchanged, and the ring's read cursor stays advanced past the
failed byte: it is consumed, not pushed back, so a retried read starts
after it. -/
theorem copyfail_byte_consumed (copyOk : Nat → Bool) (killed : Bool) (t n : Nat)
    (dl : List Nat) (s : Cons) (hrw : ¬ s.r = s.w)
    (heof : ¬ s.buf.getD (s.r % INPUT_BUF_SIZE) 0 = 4)
    (hcopy : copyOk dl.length = false) :
    consolereadLoop copyOk killed t (n + 1) dl s =
      .done ((t - (n + 1) : Nat) : Int) dl { s with r := s.r + 1 } :=
  readLoop_copyfail_step hrw heof hcopy rfl rfl

theorem copyfail_byte_consumed_witness :
    consolereadLoop (fun _ => false) false 1 1 [] (pushList [97, 10] initCons) =
      .done 0 [] ⟨((List.replicate 128 0).set 0 97).set 1 10, 1, 2, 2⟩ := by
  have h := copyfail_byte_consumed (fun _ => false) false 1 0 []
    (pushList [97, 10] initCons) (by decide) (by decide) rfl
  rw [h]
  decide

/-! ## Claims about the producer -/

/-- C9: the NUL byte (value 0) makes `consoleintr` do nothing at all —
no echo, no buffer mutation, no commit, no wakeup — even when the buffer
has space; and NUL is the only ordinary-branch character so rejected
independent of capacity: any other non-control character with space
available does append (the edit cursor advances). -/
theorem nul_input_noop :
    (∀ s : Cons, consoleintr 0 s = ⟨s, [], false⟩) ∧
    (∀ (c : Nat) (s : Cons), ¬ c = 16 → ¬ c = 21 → ¬ c = 8 → ¬ c = 127 → ¬ c = 0 →
      s.e - s.r < INPUT_BUF_SIZE → (consoleintr c s).state.e = s.e + 1) := by
  constructor
  · intro s
    simp [consoleintr]
  · intro c s h16 h21 h8 h127 h0 hcap
    rw [consoleintr, if_neg h16, if_neg h21, if_neg (by tauto : ¬ (c = 8 ∨ c = 127)),
      if_pos ⟨h0, hcap⟩]
    dsimp only
    split_ifs <;> rfl

theorem nul_input_noop_witness :
    consoleintr 0 initCons = ⟨initCons, [], false⟩ ∧
    (consoleintr 97 initCons).state.e = initCons.e + 1 :=
  ⟨nul_input_noop.1 initCons,
   nul_input_noop.2 97 initCons (by decide) (by decide) (by decide) (by decide)
     (by decide) (by decide)⟩

set_option maxRecDepth 40000 in
/-- C2 counterexample: after 128 ordinary characters the buffer is at
capacity (`e - r = INPUT_BUF_SIZE`); delivering the ordinary character
`'b'` then produces NO echo (and no mutation and no wakeup), refuting
the claim that an over-capacity ordinary character is echoed before its
append is rejected: in `consoleintr` the capacity test guards the echo
itself. -/
theorem echo_at_capacity_cex :
    (pushList (List.replicate 128 97) initCons).e -
        (pushList (List.replicate 128 97) initCons).r = 128 ∧
    consoleintr 98 (pushList (List.replicate 128 97) initCons) =
      ⟨pushList (List.replicate 128 97) initCons, [], false⟩ := by decide

/-- C2 (amended): an ordinary (non-control) input character is echoed
(after carriage-return normalization) exactly when it is accepted, i.e.
when it is nonzero and the buffer is below capacity; when the buffer is
at capacity the character is silently dropped with no echo, no buffer
mutation, and no wakeup. -/
theorem ordinary_echo_amended (c : Nat) (s : Cons)
    (h16 : ¬ c = 16) (h21 : ¬ c = 21) (h8 : ¬ c = 8) (h127 : ¬ c = 127) :
    (¬ c = 0 → s.e - s.r < INPUT_BUF_SIZE →
      (consoleintr c s).echo = consputc (if c = 13 then 10 else c)) ∧
    (¬ s.e - s.r < INPUT_BUF_SIZE → consoleintr c s = ⟨s, [], false⟩) := by
  constructor
  · intro h0 hcap
    rw [consoleintr, if_neg h16, if_neg h21, if_neg (by tauto : ¬ (c = 8 ∨ c = 127)),
      if_pos ⟨h0, hcap⟩]
    dsimp only
    split_ifs <;> rfl
  · intro hcap
    rw [consoleintr, if_neg h16, if_neg h21, if_neg (by tauto : ¬ (c = 8 ∨ c = 127)),
      if_neg (by tauto : ¬ (¬ c = 0 ∧ s.e - s.r < INPUT_BUF_SIZE))]

set_option maxRecDepth 40000 in
theorem ordinary_echo_amended_witness :
    (consoleintr 97 initCons).echo = consputc (if 97 = 13 then 10 else 97) ∧
    consoleintr 98 (pushList (List.replicate 128 97) initCons) =
      ⟨pushList (List.replicate 128 97) initCons, [], false⟩ :=
  ⟨(ordinary_echo_amended 97 initCons (by decide) (by decide) (by decide)
      (by decide)).1 (by decide) (by decide),
   (ordinary_echo_amended 98 (pushList (List.replicate 128 97) initCons)
      (by decide) (by decide) (by decide) (by decide)).2 (by decide)⟩

/-- C5: after pushing `"abc"` into the empty ring, the kill-line code
`C('U')` erases the whole in-progress line — pending (`e`) equals
committed (`w`) afterwards — emitting one `BACKSPACE` echo (the
three-byte visual erase sequence 8, 32, 8) per erased character; a
further kill-line when `e = w` changes nothing and echoes nothing. -/
theorem kill_line_erases_line :
    (consoleintr 21 (pushList [97, 98, 99] initCons)).state.e =
        (consoleintr 21 (pushList [97, 98, 99] initCons)).state.w ∧
    (consoleintr 21 (pushList [97, 98, 99] initCons)).echo =
        [8, 32, 8, 8, 32, 8, 8, 32, 8] ∧
    consoleintr 21 (consoleintr 21 (pushList [97, 98, 99] initCons)).state =
      ⟨(consoleintr 21 (pushList [97, 98, 99] initCons)).state, [], false⟩ := by decide

set_option maxRecDepth 40000 in
/-- C6: pushing `N + 2 = 130` ordinary non-newline, non-EOF characters
into the empty ring produces exactly one wakeup/commit, at the 128th
character — the moment `e - r = INPUT_BUF_SIZE` — where `w` is set to
`e`; the two excess characters are dropped (the state after 130 pushes
equals the state after 128), and a subsequent read sees a full-buffer
line boundary: it returns 128 bytes with no newline among them. -/
theorem overflow_forced_commit :
    wakeTrace (List.replicate 130 97) initCons =
        List.replicate 127 false ++ [true, false, false] ∧
    (pushList (List.replicate 128 97) initCons).e -
        (pushList (List.replicate 128 97) initCons).r = 128 ∧
    (pushList (List.replicate 128 97) initCons).w =
        (pushList (List.replicate 128 97) initCons).e ∧
    pushList (List.replicate 130 97) initCons =
        pushList (List.replicate 128 97) initCons ∧
    consoleread (fun _ => true) false 128 (pushList (List.replicate 130 97) initCons) =
      .done 128 (List.replicate 128 97) ⟨List.replicate 128 97, 128, 128, 128⟩ := by
  decide
